import Mathlib

/-!
A shallow embedding of the search engine in `search_engine.py`: the tokenizer,
the trie term dictionary, the index builder, the conjunctive query engine and
the ranking engine.  Text is modelled as `List Char` (ASCII), document
identifiers as `Nat` (the source uses URL strings, an abstract totally ordered
identifier type), and Python dictionaries as association lists.
-/

namespace SearchSpec

/-- ASCII lowercasing, the behaviour of Python `str.lower()` on ASCII input:
characters with code 65–90 are shifted by 32, all others are unchanged. -/
def pyToLower (c : Char) : Char :=
  if 65 ≤ c.toNat ∧ c.toNat ≤ 90 then Char.ofNat (c.toNat + 32) else c

/-- The 32 characters of Python `string.punctuation`, which `tokenize`
deletes from the text. -/
def punctuation : List Char :=
  "!\"#$%&()*+,-./:;<=>?@[\\]^_`{|}~".toList ++ [Char.ofNat 39]

/-- ASCII whitespace recognised by Python `str.split()`:
space, tab, newline, carriage return, vertical tab, form feed. -/
def isPySpace (c : Char) : Bool :=
  c == ' ' || c == '\t' || c == '\n' || c == '\r' ||
  c == Char.ofNat 11 || c == Char.ofNat 12

/-- One step of whitespace splitting: a whitespace character closes the
current (possibly empty) piece, any other character is prepended to it. -/
def splitAux (c : Char) (acc : List (List Char)) : List (List Char) :=
  if isPySpace c then [] :: acc
  else
    match acc with
    | [] => [[c]]
    | t :: ts => (c :: t) :: ts

/-- Python `str.split()` with no separator: split on runs of whitespace,
discarding empty pieces. -/
def pySplit (l : List Char) : List (List Char) :=
  (l.foldr splitAux []).filter (fun t => !t.isEmpty)

/-- The stop-word set of `SearchEngine.load_stop_words`. -/
def stopWords : List (List Char) :=
  ["a", "an", "the", "and", "or", "but", "is", "are", "was", "were",
   "in", "on", "at", "to", "for", "with", "by", "about", "against",
   "between", "into", "through", "during", "before", "after", "above",
   "below", "from", "up", "down", "of", "off", "over", "under", "again",
   "further", "then", "once", "here", "there", "when", "where", "why",
   "how", "all", "any", "both", "each", "few", "more", "most", "other",
   "some", "such", "no", "nor", "not", "only", "own", "same", "so",
   "than", "too", "very", "s", "t", "can", "will", "just", "don",
   "should", "now", "he", "she", "it", "they", "we", "you", "i", "me",
   "my"].map String.toList

/-- The method `SearchEngine.tokenize`: lowercase, delete punctuation, split on
whitespace, and keep only tokens that are not stop words and have length
at least 2. -/
def tokenize (text : List Char) : List (List Char) :=
  let lowered := text.map pyToLower
  let stripped := lowered.filter (fun c => decide (c ∉ punctuation))
  (pySplit stripped).filter (fun w => decide (w ∉ stopWords ∧ 1 < w.length))

/-- The query-term list computed at the top of `SearchEngine.search` and
`SearchEngine.rank_results`: the tokens of the query with stop words
filtered out once more (the second filter is redundant in the source, and
kept here for faithfulness). -/
def queryTerms (query : List Char) : List (List Char) :=
  (tokenize query).filter (fun t => decide (t ∉ stopWords))

/-! ### The trie (`TrieNode`, `Trie.insert`, `Trie.search`) -/

/-- A trie node: the `children` dictionary (an association list keyed by
character), the `is_end_of_word` flag, and the `occurrence_list_index`
(initialised to `-1`). -/
inductive TrieNode : Type
  | mk : List (Char × TrieNode) → Bool → Int → TrieNode

/-- The `children` dictionary of a node. -/
def TrieNode.children : TrieNode → List (Char × TrieNode)
  | .mk ch _ _ => ch

/-- The `is_end_of_word` flag of a node. -/
def TrieNode.isEnd : TrieNode → Bool
  | .mk _ e _ => e

/-- The `occurrence_list_index` of a node. -/
def TrieNode.index : TrieNode → Int
  | .mk _ _ i => i

/-- A freshly constructed `TrieNode()`. -/
def TrieNode.empty : TrieNode := .mk [] false (-1)

/-- Dictionary lookup `node.children[char]` (first entry with the key;
keys are unique by construction). -/
def childLookup : List (Char × TrieNode) → Char → Option TrieNode
  | [], _ => none
  | (d, n) :: rest, c => if d = c then some n else childLookup rest c

/-- Dictionary update `node.children[char] = n`, replacing the entry at an
existing key. -/
def childUpdate : List (Char × TrieNode) → Char → TrieNode → List (Char × TrieNode)
  | [], _, _ => []
  | (d, n) :: rest, c, m =>
    if d = c then (d, m) :: childUpdate rest c m else (d, n) :: childUpdate rest c m

/-- The method `Trie.insert`: walk the word, creating missing children, then mark the
terminal node as end of word and store the occurrence-list index. -/
def Trie.insert : TrieNode → List Char → Int → TrieNode
  | .mk ch _ _, [], idx => .mk ch true idx
  | .mk ch e i, c :: cs, idx =>
    match childLookup ch c with
    | some child => .mk (childUpdate ch c (Trie.insert child cs idx)) e i
    | none => .mk (ch ++ [(c, Trie.insert TrieNode.empty cs idx)]) e i

/-- The method `Trie.search`: walk the word; `-1` if a character is missing or the
terminal node is not marked as end of word, else the stored index. -/
def Trie.search : TrieNode → List Char → Int
  | .mk _ e i, [] => if e then i else -1
  | .mk ch _ _, c :: cs =>
    match childLookup ch c with
    | some child => Trie.search child cs
    | none => -1

/-- Folding a list of `(word, index)` pairs into a trie by successive
`Trie.insert` calls, starting from the given root. -/
def Trie.insertAll (t : TrieNode) (ps : List (List Char × Int)) : TrieNode :=
  ps.foldl (fun t p => Trie.insert t p.1 p.2) t

/-- First-match association lookup used to state trie correctness. -/
def assocLookup : List (List Char × Int) → List Char → Option Int
  | [], _ => none
  | (w, i) :: rest, v => if w = v then some i else assocLookup rest v

/-! ### The engine: index builder, query engine, ranking engine -/

/-- A document as the core consumes it: an identifier, the title extracted
by the markup-parsing collaborator, and the plain text.  Identifiers are
abstract and totally ordered; we model them as naturals. -/
structure Doc where
  id : Nat
  title : List Char
  text : List Char

/-- Lexicographic comparison of words by character code, the order Python
`sorted` uses on strings. -/
def wordLe : List Char → List Char → Bool
  | [], _ => true
  | _ :: _, [] => false
  | a :: as, b :: bs => if a < b then true else if b < a then false else wordLe as bs

/-- Python `sorted` on a list of document identifiers (ascending).  Python
`sorted` is a stable sort; any stable sort is a faithful model, and
`List.insertionSort` is one that the kernel can evaluate. -/
def sortIds (l : List Nat) : List Nat :=
  l.insertionSort (· ≤ ·)

/-- The value of `inverted_index[w]` after all pages are processed: each
page appends its id at most once (via `set(words)`), guarded by the stop
word and length test repeated in `process_page`, in page-processing order. -/
def invList (docs : List Doc) (w : List Char) : List Nat :=
  (docs.filter
    (fun d => decide (w ∉ stopWords ∧ 1 < w.length ∧ w ∈ tokenize d.text))).map Doc.id

/-- The keys of `inverted_index`: every word contributed by some page.
(`List.dedup` models the key set; the order is irrelevant because
`build_index` sorts the keys.) -/
def allWords (docs : List Doc) : List (List Char) :=
  ((docs.map (fun d => tokenize d.text)).flatten.filter
    (fun w => decide (w ∉ stopWords ∧ 1 < w.length))).dedup

/-- The expression `sorted(self.inverted_index.keys())` in `build_index` (stable sort in
the lexicographic word order). -/
def sortedWords (docs : List Doc) : List (List Char) :=
  (allWords docs).insertionSort (fun v w => wordLe v w = true)

/-- The trie built by `build_index`: each vocabulary word is inserted with
its position in the sorted vocabulary. -/
def buildTrie (ws : List (List Char)) : TrieNode :=
  Trie.insertAll TrieNode.empty (ws.enum.map (fun p => (p.2, Int.ofNat p.1)))

/-- The state of a `SearchEngine` after `crawl_directory` has run: the
trie, the occurrence-list array, and the per-document token multiset
(`word_frequencies`, a `Counter`, modelled by keeping the token list and
counting) and title tables. -/
structure SearchEngine where
  trie : TrieNode
  occurrence_lists : List (List Nat)
  word_frequencies : List (Nat × List (List Char))
  page_titles : List (Nat × List Char)

/-- The engine obtained by processing every document (`process_page`) and
then running `build_index`. -/
def buildEngine (docs : List Doc) : SearchEngine :=
  { trie := buildTrie (sortedWords docs)
    occurrence_lists := (sortedWords docs).map (fun w => sortIds (invList docs w))
    word_frequencies := docs.map (fun d => (d.id, tokenize d.text))
    page_titles := docs.map (fun d => (d.id, d.title)) }

/-- Array access `self.occurrence_lists[i]`.  In the program `i` is always
a valid index produced by the trie; out-of-range access is given the
harmless default `[]`. -/
def listGet (ls : List (List Nat)) (i : Int) : List Nat :=
  ls.getD i.toNat []

/-- The occurrence list reached through the trie for a term: `[]` when the
trie answers `-1`. -/
def postingsForTerm (e : SearchEngine) (t : List Char) : List Nat :=
  let i := Trie.search e.trie t
  if i = -1 then [] else listGet e.occurrence_lists i

/-- The loop of the multi-term branch of `search`: look every term up,
returning `none` as soon as one resolves to `-1`, otherwise the collected
occurrence lists in term order. -/
def collectLists (e : SearchEngine) : List (List Char) → Option (List (List Nat))
  | [] => some []
  | w :: ws =>
    if Trie.search e.trie w = -1 then none
    else
      match collectLists e ws with
      | none => none
      | some ls => some (listGet e.occurrence_lists (Trie.search e.trie w) :: ls)

/-- Set intersection of the collected occurrence lists.  Python iterates a
`set` in unspecified order; we fix the order of the first list, which is
set-equal to the source's result. -/
def intersectLists : List (List Nat) → List Nat
  | [] => []
  | l :: rest => l.filter (fun x => rest.all (fun r => decide (x ∈ r)))

/-- The method `SearchEngine.search`: empty token list gives `[]`; a single term is
answered from its occurrence list; several terms are intersected, with an
empty answer as soon as one term is not in the trie. -/
def SearchEngine.search (e : SearchEngine) (query : List Char) : List Nat :=
  match queryTerms query with
  | [] => []
  | [word] =>
    let i := Trie.search e.trie word
    if i = -1 then [] else listGet e.occurrence_lists i
  | terms =>
    match collectLists e terms with
    | none => []
    | some ls => intersectLists ls

/-- The lookup `page_word_counts.get(term, 0)`: occurrences of a term in a document's
token list (`Counter` lookup with default 0). -/
def freqIn (toks : List (List Char)) (t : List Char) : Nat :=
  toks.count t

/-- The title bonus of `rank_results`: 2 when the document has a stored
title and the term occurs in it as a (case-insensitively, via `lower()`)
substring, else 0. -/
def titleBonus (e : SearchEngine) (u : Nat) (t : List Char) : Nat :=
  match List.lookup u e.page_titles with
  | some ti => if t <:+: ti.map pyToLower then 2 else 0
  | none => 0

/-- The score accumulation loop of `rank_results` for one candidate:
starting from 0, each query-term occurrence (duplicates included) adds its
frequency in the document and then its title bonus. -/
def scoreLoop (e : SearchEngine) (terms : List (List Char)) (toks : List (List Char))
    (u : Nat) : Nat :=
  terms.foldl (fun s t => s + freqIn toks t + titleBonus e u t) 0

/-- The `scores` dictionary of `rank_results` as an association list in
candidate order; `none` models the `KeyError` raised by
`self.word_frequencies[url]` when a candidate was never indexed. -/
def scoresFor (e : SearchEngine) (terms : List (List Char)) :
    List Nat → Option (List (Nat × Nat))
  | [] => some []
  | u :: us =>
    match List.lookup u e.word_frequencies with
    | none => none
    | some toks =>
      match scoresFor e terms us with
      | none => none
      | some rest => some ((u, scoreLoop e terms toks u) :: rest)

/-- Python dictionary key order: first occurrence of each key.  `scores`
is keyed by candidate id, so duplicate candidates collapse onto their
first occurrence. -/
def dedupFirst : List Nat → List Nat
  | [] => []
  | x :: xs => x :: (dedupFirst xs).filter (fun y => decide (y ≠ x))

/-- The method `SearchEngine.rank_results`: score every candidate, then sort by score
descending (`sorted(..., reverse=True)` is a stable sort, modelled by a
stable sort with the reversed comparison) and return the ids.  `none`
models the `KeyError` on a candidate that was never indexed. -/
def SearchEngine.rank_results (e : SearchEngine) (query : List Char)
    (results : List Nat) : Option (List Nat) :=
  match scoresFor e (queryTerms query) (dedupFirst results) with
  | none => none
  | some pairs =>
    some ((pairs.insertionSort (fun a b => b.2 ≤ a.2)).map Prod.fst)

/-! ### Trie correctness -/

theorem childLookup_childUpdate_ne {l : List (Char × TrieNode)} {c d : Char}
    {m : TrieNode} (h : c ≠ d) :
    childLookup (childUpdate l c m) d = childLookup l d := by
  induction l with
  | nil => rfl
  | cons p rest ih =>
    obtain ⟨k, n⟩ := p
    by_cases hk : k = c
    · subst hk
      simp only [childUpdate, if_pos rfl, childLookup, if_neg h, ih]
    · simp only [childUpdate, if_neg hk, childLookup, ih]

theorem childLookup_childUpdate_eq {l : List (Char × TrieNode)} {c : Char}
    {n m : TrieNode} (h : childLookup l c = some n) :
    childLookup (childUpdate l c m) c = some m := by
  induction l with
  | nil => simp [childLookup] at h
  | cons p rest ih =>
    obtain ⟨k, n'⟩ := p
    by_cases hk : k = c
    · subst hk
      simp [childUpdate, childLookup]
    · simp only [childLookup, if_neg hk] at h
      simp only [childUpdate, if_neg hk, childLookup, if_neg hk]
      exact ih h

theorem childLookup_append_eq {l : List (Char × TrieNode)} {c : Char}
    {m : TrieNode} (h : childLookup l c = none) :
    childLookup (l ++ [(c, m)]) c = some m := by
  induction l with
  | nil => simp [childLookup]
  | cons p rest ih =>
    obtain ⟨k, n⟩ := p
    by_cases hk : k = c
    · subst hk; simp [childLookup] at h
    · simp only [childLookup, if_neg hk] at h
      simpa [childLookup, if_neg hk] using ih h

theorem childLookup_append_ne {l : List (Char × TrieNode)} {c d : Char}
    {m : TrieNode} (h : c ≠ d) :
    childLookup (l ++ [(c, m)]) d = childLookup l d := by
  induction l with
  | nil => simp [childLookup, if_neg h]
  | cons p rest ih =>
    obtain ⟨k, n⟩ := p
    by_cases hk : k = d
    · subst hk; simp [childLookup]
    · simpa [childLookup, if_neg hk] using ih

/-- Searching the empty trie always fails. -/
theorem trie_search_empty (w : List Char) : Trie.search TrieNode.empty w = -1 := by
  cases w with
  | nil => rfl
  | cons c cs => rfl

/-- After inserting a word, searching for that word returns the index just
inserted. -/
theorem trie_search_insert_self (w : List Char) :
    ∀ (t : TrieNode) (idx : Int), Trie.search (Trie.insert t w idx) w = idx := by
  induction w with
  | nil =>
    intro t idx
    obtain ⟨ch, e, i⟩ := t
    simp [Trie.insert, Trie.search]
  | cons c cs ih =>
    intro t idx
    obtain ⟨ch, e, i⟩ := t
    cases h : childLookup ch c with
    | some child =>
      simp only [Trie.insert, h, Trie.search, childLookup_childUpdate_eq h]
      exact ih _ _
    | none =>
      simp only [Trie.insert, h, Trie.search, childLookup_append_eq h]
      exact ih _ _

/-- Inserting one word does not change the search result for a different
word. -/
theorem trie_search_insert_other (w' : List Char) :
    ∀ (w : List Char) (t : TrieNode) (idx : Int), w ≠ w' →
      Trie.search (Trie.insert t w' idx) w = Trie.search t w := by
  induction w' with
  | nil =>
    intro w t idx hne
    obtain ⟨ch, e, i⟩ := t
    cases w with
    | nil => exact absurd rfl hne
    | cons c cs => simp [Trie.insert, Trie.search]
  | cons c' cs' ih =>
    intro w t idx hne
    obtain ⟨ch, e, i⟩ := t
    cases w with
    | nil =>
      cases h : childLookup ch c' <;> simp [Trie.insert, h, Trie.search]
    | cons c cs =>
      by_cases hc : c = c'
      · subst hc
        have hcs : cs ≠ cs' := fun h => hne (h ▸ rfl)
        cases h : childLookup ch c with
        | some child =>
          simp only [Trie.insert, h, Trie.search, childLookup_childUpdate_eq h]
          exact ih cs child idx hcs
        | none =>
          simp only [Trie.insert, h, Trie.search, childLookup_append_eq h]
          rw [ih cs TrieNode.empty idx hcs, trie_search_empty]
      · cases h : childLookup ch c' with
        | some child =>
          simp only [Trie.insert, h, Trie.search]
          rw [childLookup_childUpdate_ne (fun hx => hc hx.symm)]
        | none =>
          simp only [Trie.insert, h, Trie.search]
          rw [childLookup_append_ne (fun hx => hc hx.symm)]

/-- Inserting a batch of words none of which is `w` does not change the
search result for `w`. -/
theorem trie_search_insertAll_not_mem (ps : List (List Char × Int)) :
    ∀ (t : TrieNode) (w : List Char), w ∉ ps.map Prod.fst →
      Trie.search (Trie.insertAll t ps) w = Trie.search t w := by
  induction ps with
  | nil => intro t w _; rfl
  | cons p rest ih =>
    intro t w hw
    simp only [List.map_cons, List.mem_cons, not_or] at hw
    calc Trie.search (Trie.insertAll (Trie.insert t p.1 p.2) rest) w
        = Trie.search (Trie.insert t p.1 p.2) w := ih _ w hw.2
      _ = Trie.search t w := trie_search_insert_other p.1 w t p.2 hw.1

/-- With pairwise-distinct words, searching for an inserted word returns
the index it was inserted with. -/
theorem trie_search_insertAll_mem (ps : List (List Char × Int)) :
    ∀ (t : TrieNode) (w : List Char) (idx : Int),
      (ps.map Prod.fst).Nodup → (w, idx) ∈ ps →
      Trie.search (Trie.insertAll t ps) w = idx := by
  induction ps with
  | nil => intro t w idx _ h; simp at h
  | cons p rest ih =>
    intro t w idx hnd hmem
    have hnd' : p.1 ∉ rest.map Prod.fst ∧ (rest.map Prod.fst).Nodup := by
      rw [List.map_cons, List.nodup_cons] at hnd
      exact hnd
    rcases List.mem_cons.mp hmem with heq | hmem'
    · subst heq
      show Trie.search (Trie.insertAll (Trie.insert t w idx) rest) w = idx
      rw [trie_search_insertAll_not_mem rest _ w hnd'.1,
        trie_search_insert_self]
    · exact ih _ w idx hnd'.2 hmem'

theorem assocLookup_eq_some {ps : List (List Char × Int)} {w : List Char} {i : Int}
    (h : assocLookup ps w = some i) : (w, i) ∈ ps := by
  induction ps with
  | nil => simp [assocLookup] at h
  | cons p rest ih =>
    obtain ⟨v, j⟩ := p
    by_cases hv : v = w
    · subst hv
      have hj : j = i := by simpa [assocLookup] using h
      subst hj
      exact List.mem_cons_self _ _
    · simp only [assocLookup, if_neg hv] at h
      exact List.mem_cons_of_mem _ (ih h)

theorem assocLookup_eq_none {ps : List (List Char × Int)} {w : List Char}
    (h : assocLookup ps w = none) : w ∉ ps.map Prod.fst := by
  induction ps with
  | nil => simp
  | cons p rest ih =>
    obtain ⟨v, j⟩ := p
    by_cases hv : v = w
    · subst hv; simp [assocLookup] at h
    · simp only [assocLookup, if_neg hv] at h
      simp only [List.map_cons, List.mem_cons, not_or]
      exact ⟨fun hw => hv hw.symm, ih h⟩

/-- Trie functional correctness: building a trie from pairwise-distinct
words answers exactly the association-list lookup, with `-1` for absent
words. -/
theorem trie_insertAll_search (ps : List (List Char × Int))
    (hnd : (ps.map Prod.fst).Nodup) (w : List Char) :
    Trie.search (Trie.insertAll TrieNode.empty ps) w =
      match assocLookup ps w with
      | some i => i
      | none => -1 := by
  cases h : assocLookup ps w with
  | some i => exact trie_search_insertAll_mem ps _ w i hnd (assocLookup_eq_some h)
  | none =>
    rw [trie_search_insertAll_not_mem ps _ w (assocLookup_eq_none h),
      trie_search_empty]

/-! ### Tokenizer properties -/

theorem pyToLower_idem (c : Char) : pyToLower (pyToLower c) = pyToLower c := by
  unfold pyToLower
  by_cases h : 65 ≤ c.toNat ∧ c.toNat ≤ 90
  · rw [if_pos h]
    have h1 : (Char.ofNat (c.toNat + 32)).toNat = c.toNat + 32 := by
      obtain ⟨h65, h90⟩ := h
      set n := c.toNat with hn
      interval_cases n <;> decide
    rw [if_neg]
    rw [h1]
    omega
  · rw [if_neg h, if_neg h]

theorem splitAux_space {c : Char} (h : isPySpace c = true)
    (acc : List (List Char)) : splitAux c acc = [] :: acc := by
  unfold splitAux
  rw [if_pos h]

theorem splitAux_nonspace_nil {c : Char} (h : isPySpace c = false) :
    splitAux c [] = [[c]] := by
  unfold splitAux
  rw [if_neg (by simp [h])]

theorem splitAux_nonspace_cons {c : Char} (h : isPySpace c = false)
    (t : List Char) (ts : List (List Char)) :
    splitAux c (t :: ts) = (c :: t) :: ts := by
  unfold splitAux
  rw [if_neg (by simp [h])]

/-- Every character of a piece produced by the whitespace splitter is a
non-whitespace character of the input. -/
theorem mem_foldr_splitAux (l : List Char) :
    ∀ w ∈ l.foldr splitAux [], ∀ c ∈ w, isPySpace c = false ∧ c ∈ l := by
  induction l with
  | nil => intro w hw; simp at hw
  | cons a as ih =>
    intro w hw c hc
    rw [List.foldr_cons] at hw
    by_cases ha : isPySpace a
    · rw [splitAux_space ha] at hw
      rcases List.mem_cons.mp hw with rfl | hw'
      · simp at hc
      · have := ih w hw' c hc
        exact ⟨this.1, List.mem_cons_of_mem _ this.2⟩
    · have ha' : isPySpace a = false := by simpa using ha
      cases hrec : as.foldr splitAux [] with
      | nil =>
        rw [hrec, splitAux_nonspace_nil ha'] at hw
        rcases List.mem_singleton.mp hw with rfl
        rcases List.mem_singleton.mp hc with rfl
        exact ⟨ha', List.mem_cons_self _ _⟩
      | cons t ts =>
        rw [hrec, splitAux_nonspace_cons ha'] at hw
        rcases List.mem_cons.mp hw with rfl | hw'
        · rcases List.mem_cons.mp hc with rfl | hc'
          · exact ⟨ha', List.mem_cons_self _ _⟩
          · have := ih t (hrec ▸ List.mem_cons_self _ _) c hc'
            exact ⟨this.1, List.mem_cons_of_mem _ this.2⟩
        · have := ih w (hrec ▸ List.mem_cons_of_mem _ hw') c hc
          exact ⟨this.1, List.mem_cons_of_mem _ this.2⟩

/-- Pieces produced by `pySplit` are nonempty and consist of
non-whitespace characters of the input. -/
theorem mem_pySplit {l : List Char} {w : List Char} (hw : w ∈ pySplit l) :
    w ≠ [] ∧ ∀ c ∈ w, isPySpace c = false ∧ c ∈ l := by
  unfold pySplit at hw
  have h1 := List.of_mem_filter hw
  have h2 := List.mem_of_mem_filter hw
  refine ⟨fun he => by simp [he] at h1, mem_foldr_splitAux l w h2⟩

/-- Every token of `tokenize` is nonempty, not a stop word, of length at
least 2, and consists of non-whitespace, non-punctuation characters fixed
by lowercasing. -/
theorem tokenize_token_props {x w : List Char} (hw : w ∈ tokenize x) :
    w ≠ [] ∧ w ∉ stopWords ∧ 1 < w.length ∧
      ∀ c ∈ w, isPySpace c = false ∧ c ∉ punctuation ∧ pyToLower c = c := by
  unfold tokenize at hw
  have hfilt := List.of_mem_filter hw
  have hsplit := List.mem_of_mem_filter hw
  have hprops := mem_pySplit hsplit
  have hws : w ∉ stopWords ∧ 1 < w.length := by simpa using hfilt
  refine ⟨hprops.1, hws.1, hws.2, fun c hc => ?_⟩
  have h1 := (hprops.2 c hc).1
  have h2 := (hprops.2 c hc).2
  have h3 := List.of_mem_filter h2
  have h4 := List.mem_of_mem_filter h2
  have h5 : c ∉ punctuation := by simpa using h3
  obtain ⟨c0, _, hc0⟩ := List.mem_map.mp h4
  refine ⟨h1, h5, ?_⟩
  rw [← hc0, pyToLower_idem]

/-- Python `" ".join(tokens)`: the tokens separated by single spaces. -/
def joinSpace : List (List Char) → List Char
  | [] => []
  | [w] => w
  | w :: v :: ws => w ++ ' ' :: joinSpace (v :: ws)

/-- Every character of the joined string is a space or a character of one
of the tokens. -/
theorem mem_joinSpace {ts : List (List Char)} {c : Char}
    (hc : c ∈ joinSpace ts) : c = ' ' ∨ ∃ w ∈ ts, c ∈ w := by
  induction ts with
  | nil => simp [joinSpace] at hc
  | cons w ws ih =>
    cases ws with
    | nil =>
      right
      exact ⟨w, List.mem_singleton_self w, hc⟩
    | cons v vs =>
      rw [show joinSpace (w :: v :: vs) = w ++ ' ' :: joinSpace (v :: vs) from rfl]
        at hc
      rcases List.mem_append.mp hc with hw | htail
      · exact Or.inr ⟨w, List.mem_cons_self _ _, hw⟩
      · rcases List.mem_cons.mp htail with rfl | hrest
        · exact Or.inl rfl
        · rcases ih hrest with hsp | ⟨u, hu, hcu⟩
          · exact Or.inl hsp
          · exact Or.inr ⟨u, List.mem_cons_of_mem _ hu, hcu⟩

/-- Splitting a nonempty all-non-whitespace word pushed onto a freshly
opened piece yields the word as one piece. -/
theorem foldr_splitAux_word {w : List Char} (hne : w ≠ [])
    (hns : ∀ c ∈ w, isPySpace c = false) (acc : List (List Char)) :
    w.foldr splitAux ([] :: acc) = w :: acc := by
  induction w with
  | nil => exact absurd rfl hne
  | cons c cs ih =>
    rw [List.foldr_cons]
    cases cs with
    | nil =>
      rw [show ([] : List Char).foldr splitAux ([] :: acc) = [] :: acc from rfl,
        splitAux_nonspace_cons (hns c (List.mem_cons_self _ _))]
    | cons d ds =>
      rw [ih (by simp) (fun x hx => hns x (List.mem_cons_of_mem _ hx)),
        splitAux_nonspace_cons (hns c (List.mem_cons_self _ _))]

/-- Splitting a nonempty all-non-whitespace word standing alone yields
the word as the single piece. -/
theorem foldr_splitAux_word_nil {w : List Char} (hne : w ≠ [])
    (hns : ∀ c ∈ w, isPySpace c = false) :
    w.foldr splitAux [] = [w] := by
  induction w with
  | nil => exact absurd rfl hne
  | cons c cs ih =>
    rw [List.foldr_cons]
    cases cs with
    | nil => exact splitAux_nonspace_nil (hns c (List.mem_cons_self _ _))
    | cons d ds =>
      rw [ih (by simp) (fun x hx => hns x (List.mem_cons_of_mem _ hx)),
        splitAux_nonspace_cons (hns c (List.mem_cons_self _ _))]

/-- Splitting the space-joined token list recovers the token list, when
every token is nonempty and whitespace-free. -/
theorem foldr_splitAux_joinSpace {ts : List (List Char)}
    (h : ∀ w ∈ ts, w ≠ [] ∧ ∀ c ∈ w, isPySpace c = false) :
    (joinSpace ts).foldr splitAux [] = ts := by
  induction ts with
  | nil => rfl
  | cons w ws ih =>
    cases ws with
    | nil =>
      have hw := h w (List.mem_singleton_self w)
      rw [show joinSpace [w] = w from rfl, foldr_splitAux_word_nil hw.1 hw.2]
    | cons v vs =>
      have hw := h w (List.mem_cons_self _ _)
      have hrest : (joinSpace (v :: vs)).foldr splitAux [] = v :: vs :=
        ih (fun u hu => h u (List.mem_cons_of_mem _ hu))
      rw [show joinSpace (w :: v :: vs) = w ++ ' ' :: joinSpace (v :: vs) from rfl,
        List.foldr_append, List.foldr_cons, hrest,
        splitAux_space (by decide),
        foldr_splitAux_word hw.1 hw.2]

/-- Re-splitting the joined tokens recovers the tokens. -/
theorem pySplit_joinSpace {ts : List (List Char)}
    (h : ∀ w ∈ ts, w ≠ [] ∧ ∀ c ∈ w, isPySpace c = false) :
    pySplit (joinSpace ts) = ts := by
  unfold pySplit
  rw [foldr_splitAux_joinSpace h]
  exact List.filter_eq_self.mpr (fun w hw => by
    simpa using (h w hw).1)

/-- The function `tokenize` written without `let` bindings. -/
theorem tokenize_def (text : List Char) :
    tokenize text =
      (pySplit ((text.map pyToLower).filter (fun c => decide (c ∉ punctuation)))).filter
        (fun w => decide (w ∉ stopWords ∧ 1 < w.length)) := rfl

/-- Tokenization is idempotent on the space-joined output of tokenization. -/
theorem tokenize_joinSpace (x : List Char) :
    tokenize (joinSpace (tokenize x)) = tokenize x := by
  have hprops : ∀ w ∈ tokenize x, w ≠ [] ∧ ∀ c ∈ w, isPySpace c = false :=
    fun w hw =>
      ⟨(tokenize_token_props hw).1,
       fun c hc => ((tokenize_token_props hw).2.2.2 c hc).1⟩
  have hchar : ∀ c ∈ joinSpace (tokenize x), pyToLower c = c ∧ c ∉ punctuation := by
    intro c hc
    rcases mem_joinSpace hc with rfl | ⟨w, hw, hcw⟩
    · exact ⟨by decide, by decide⟩
    · have hc' := (tokenize_token_props hw).2.2.2 c hcw
      exact ⟨hc'.2.2, hc'.2.1⟩
  rw [tokenize_def]
  have h1 : (joinSpace (tokenize x)).map pyToLower = joinSpace (tokenize x) := by
    rw [List.map_congr_left (fun c hc => (hchar c hc).1)]
    exact List.map_id' _
  have h2 : (joinSpace (tokenize x)).filter (fun c => decide (c ∉ punctuation)) =
      joinSpace (tokenize x) :=
    List.filter_eq_self.mpr (fun c hc => by simpa using (hchar c hc).2)
  rw [h1, h2, pySplit_joinSpace hprops]
  exact List.filter_eq_self.mpr (fun w hw => by
    have h := tokenize_token_props hw
    simpa using ⟨h.2.1, h.2.2.1⟩)

/-! ### Engine structure lemmas -/

theorem sortedWords_nodup (docs : List Doc) : (sortedWords docs).Nodup :=
  (List.perm_insertionSort _ _).nodup_iff.mpr (List.nodup_dedup _)

theorem mem_sortedWords {docs : List Doc} {w : List Char} :
    w ∈ sortedWords docs ↔ ∃ d ∈ docs, w ∈ tokenize d.text := by
  unfold sortedWords allWords
  rw [List.mem_insertionSort, List.mem_dedup, List.mem_filter]
  constructor
  · rintro ⟨hmem, -⟩
    rw [List.mem_flatten] at hmem
    obtain ⟨toks, htoks, hw⟩ := hmem
    obtain ⟨d, hd, rfl⟩ := List.mem_map.mp htoks
    exact ⟨d, hd, hw⟩
  · rintro ⟨d, hd, hw⟩
    have hp := tokenize_token_props hw
    refine ⟨List.mem_flatten.mpr ⟨tokenize d.text, List.mem_map_of_mem _ hd, hw⟩, ?_⟩
    simpa using ⟨hp.2.1, hp.2.2.1⟩

/-- The word list of the pairs inserted by `buildTrie` is the vocabulary
itself. -/
theorem buildTrie_pairs_fst (ws : List (List Char)) :
    ((ws.enum.map (fun p => (p.2, Int.ofNat p.1))).map Prod.fst) = ws := by
  rw [List.map_map]
  exact List.enum_map_snd ws

theorem trie_search_buildTrie_not_mem {ws : List (List Char)} {w : List Char}
    (hw : w ∉ ws) : Trie.search (buildTrie ws) w = -1 := by
  unfold buildTrie
  rw [trie_search_insertAll_not_mem _ _ _ (by rwa [buildTrie_pairs_fst]),
    trie_search_empty]

/-- Position of the first occurrence of a word in the vocabulary list. -/
def wordIndex : List (List Char) → List Char → Nat
  | [], _ => 0
  | v :: vs, w => if v = w then 0 else wordIndex vs w + 1

theorem wordIndex_lt_length {ws : List (List Char)} {w : List Char}
    (hw : w ∈ ws) : wordIndex ws w < ws.length := by
  induction ws with
  | nil => simp at hw
  | cons v vs ih =>
    by_cases hv : v = w
    · simp [wordIndex, hv]
    · have hw' : w ∈ vs := by
        rcases List.mem_cons.mp hw with heq | hm
        · exact absurd heq.symm hv
        · exact hm
      simp only [wordIndex, if_neg hv, List.length_cons]
      exact Nat.succ_lt_succ (ih hw')

theorem wordIndex_getElem? {ws : List (List Char)} {w : List Char}
    (hw : w ∈ ws) : ws[wordIndex ws w]? = some w := by
  induction ws with
  | nil => simp at hw
  | cons v vs ih =>
    by_cases hv : v = w
    · simp [wordIndex, hv]
    · have hw' : w ∈ vs := by
        rcases List.mem_cons.mp hw with heq | hm
        · exact absurd heq.symm hv
        · exact hm
      simp only [wordIndex, if_neg hv, List.getElem?_cons_succ]
      exact ih hw'

theorem trie_search_buildTrie_mem {ws : List (List Char)} (hnd : ws.Nodup)
    {w : List Char} (hw : w ∈ ws) :
    Trie.search (buildTrie ws) w = Int.ofNat (wordIndex ws w) := by
  unfold buildTrie
  apply trie_search_insertAll_mem
  · rwa [buildTrie_pairs_fst]
  · have hmem : (wordIndex ws w, w) ∈ ws.enum :=
      List.mk_mem_enum_iff_getElem?.mpr (wordIndex_getElem? hw)
    exact List.mem_map_of_mem _ hmem

/-- Reading the occurrence-list array at the index the trie stores for a
vocabulary word yields that word's sorted occurrence list. -/
theorem listGet_buildEngine {docs : List Doc} {w : List Char}
    (hw : w ∈ sortedWords docs) :
    listGet (buildEngine docs).occurrence_lists
        (Int.ofNat (wordIndex (sortedWords docs) w)) =
      sortIds (invList docs w) := by
  unfold listGet buildEngine
  rw [show (Int.ofNat (wordIndex (sortedWords docs) w)).toNat
      = wordIndex (sortedWords docs) w from rfl]
  rw [List.getD_eq_getElem?_getD, List.getElem?_map, wordIndex_getElem? hw]
  rfl

/-- The occurrence list the engine associates with a term: the sorted
inverted list for vocabulary terms, `[]` for all others. -/
theorem postingsForTerm_buildEngine (docs : List Doc) (t : List Char) :
    postingsForTerm (buildEngine docs) t =
      if t ∈ sortedWords docs then sortIds (invList docs t) else [] := by
  unfold postingsForTerm
  by_cases ht : t ∈ sortedWords docs
  · rw [if_pos ht]
    show (if Trie.search (buildEngine docs).trie t = -1 then _ else _) = _
    rw [show (buildEngine docs).trie = buildTrie (sortedWords docs) from rfl,
      trie_search_buildTrie_mem (sortedWords_nodup docs) ht]
    have hne : Int.ofNat (wordIndex (sortedWords docs) t) ≠ -1 :=
      fun h => Int.noConfusion h
    rw [if_neg hne]
    exact listGet_buildEngine ht
  · rw [if_neg ht]
    show (if Trie.search (buildEngine docs).trie t = -1 then _ else _) = _
    rw [show (buildEngine docs).trie = buildTrie (sortedWords docs) from rfl,
      trie_search_buildTrie_not_mem ht, if_pos rfl]

theorem mem_sortIds {l : List Nat} {d : Nat} : d ∈ sortIds l ↔ d ∈ l :=
  List.mem_insertionSort _

theorem mem_invList {docs : List Doc} {w : List Char} {d : Nat} :
    d ∈ invList docs w ↔
      ∃ doc ∈ docs, doc.id = d ∧ w ∉ stopWords ∧ 1 < w.length ∧
        w ∈ tokenize doc.text := by
  unfold invList
  rw [List.mem_map]
  constructor
  · rintro ⟨doc, hdoc, rfl⟩
    have h := List.mem_filter.mp hdoc
    exact ⟨doc, h.1, rfl, by simpa using h.2⟩
  · rintro ⟨doc, hdoc, rfl, hcond⟩
    exact ⟨doc, List.mem_filter.mpr ⟨hdoc, by simpa using hcond⟩, rfl⟩

/-- Membership in the sorted occurrence list reached through the trie,
for an arbitrary term. -/
theorem mem_postingsForTerm {docs : List Doc} {t : List Char} {d : Nat} :
    d ∈ postingsForTerm (buildEngine docs) t ↔
      ∃ doc ∈ docs, doc.id = d ∧ t ∈ tokenize doc.text := by
  rw [postingsForTerm_buildEngine]
  by_cases ht : t ∈ sortedWords docs
  · rw [if_pos ht, mem_sortIds, mem_invList]
    constructor
    · rintro ⟨doc, hdoc, rfl, -, -, htok⟩
      exact ⟨doc, hdoc, rfl, htok⟩
    · rintro ⟨doc, hdoc, rfl, htok⟩
      have hp := tokenize_token_props htok
      exact ⟨doc, hdoc, rfl, hp.2.1, hp.2.2.1, htok⟩
  · rw [if_neg ht]
    simp only [List.not_mem_nil, false_iff]
    rintro ⟨doc, hdoc, rfl, htok⟩
    exact ht (mem_sortedWords.mpr ⟨doc, hdoc, htok⟩)

/-! ### Lookup in the built document tables -/

theorem lookup_build_some {α : Type} {docs : List Doc} {f : Doc → α} {u : Nat}
    {v : α} (h : List.lookup u (docs.map (fun d => (d.id, f d))) = some v) :
    ∃ doc ∈ docs, doc.id = u ∧ f doc = v := by
  induction docs with
  | nil => simp [List.lookup] at h
  | cons doc rest ih =>
    by_cases hu : u = doc.id
    · have hbe : (u == doc.id) = true := beq_iff_eq.mpr hu
      simp only [List.map_cons, List.lookup_cons, hbe, Option.some.injEq] at h
      exact ⟨doc, List.mem_cons_self _ _, hu.symm, h⟩
    · have hbe : (u == doc.id) = false := by simpa using hu
      simp only [List.map_cons, List.lookup_cons, hbe] at h
      obtain ⟨doc', hd', hid, hv⟩ := ih h
      exact ⟨doc', List.mem_cons_of_mem _ hd', hid, hv⟩

theorem lookup_build_isSome {α : Type} {docs : List Doc} {f : Doc → α} {u : Nat}
    (h : u ∈ docs.map Doc.id) :
    (List.lookup u (docs.map (fun d => (d.id, f d)))).isSome := by
  induction docs with
  | nil => simp at h
  | cons doc rest ih =>
    by_cases hu : u = doc.id
    · have hbe : (u == doc.id) = true := beq_iff_eq.mpr hu
      simp [List.lookup_cons, hbe]
    · have hbe : (u == doc.id) = false := by simpa using hu
      simp only [List.map_cons, List.lookup_cons, hbe]
      have h' : u = doc.id ∨ u ∈ rest.map Doc.id := by simpa using h
      rcases h' with heq | hmem
      · exact absurd heq hu
      · exact ih hmem

theorem lookup_build_of_mem {α : Type} {docs : List Doc} {f : Doc → α}
    (hnd : (docs.map Doc.id).Nodup) {doc : Doc} (hdoc : doc ∈ docs) :
    List.lookup doc.id (docs.map (fun d => (d.id, f d))) = some (f doc) := by
  have hs := @lookup_build_isSome α docs f doc.id (List.mem_map_of_mem Doc.id hdoc)
  obtain ⟨v, hv⟩ := Option.isSome_iff_exists.mp hs
  obtain ⟨doc', hd', hid, hfv⟩ := lookup_build_some hv
  have heq : doc' = doc := List.inj_on_of_nodup_map hnd hd' hdoc hid
  rw [hv, ← hfv, heq]

/-! ### Search characterization -/

/-- The extra stop-word filter in `search`/`rank_results` is redundant:
`tokenize` already removes stop words. -/
theorem queryTerms_eq_tokenize (q : List Char) : queryTerms q = tokenize q := by
  unfold queryTerms
  exact List.filter_eq_self.mpr (fun w hw => by
    simpa using (tokenize_token_props hw).2.1)

theorem collectLists_none_iff {e : SearchEngine} {ts : List (List Char)} :
    collectLists e ts = none ↔ ∃ t ∈ ts, Trie.search e.trie t = -1 := by
  induction ts with
  | nil => simp [collectLists]
  | cons t rest ih =>
    unfold collectLists
    by_cases hf : Trie.search e.trie t = -1
    · rw [if_pos hf]
      exact iff_of_true rfl ⟨t, List.mem_cons_self _ _, hf⟩
    · rw [if_neg hf]
      cases hc : collectLists e rest with
      | none =>
        refine iff_of_true rfl ?_
        obtain ⟨t', ht', hs⟩ := ih.mp hc
        exact ⟨t', List.mem_cons_of_mem _ ht', hs⟩
      | some ls =>
        refine iff_of_false (by simp) ?_
        rintro ⟨t', ht', hs⟩
        rcases List.mem_cons.mp ht' with rfl | hm
        · exact hf hs
        · exact (ih.not.mp (by simp [hc])) ⟨t', hm, hs⟩

theorem collectLists_some_eq {e : SearchEngine} {ts : List (List Char)}
    {ls : List (List Nat)} (h : collectLists e ts = some ls) :
    ls = ts.map (fun t => listGet e.occurrence_lists (Trie.search e.trie t)) := by
  induction ts generalizing ls with
  | nil => simpa [collectLists] using h.symm
  | cons t rest ih =>
    unfold collectLists at h
    by_cases hf : Trie.search e.trie t = -1
    · rw [if_pos hf] at h
      exact absurd h (by simp)
    · rw [if_neg hf] at h
      cases hc : collectLists e rest with
      | none => rw [hc] at h; exact absurd h (by simp)
      | some ls' =>
        rw [hc] at h
        have hls : listGet e.occurrence_lists (Trie.search e.trie t) :: ls' = ls := by
          simpa using h
        rw [← hls, List.map_cons, ih hc]

theorem mem_intersectLists {ls : List (List Nat)} {x : Nat} :
    x ∈ intersectLists ls ↔ ls ≠ [] ∧ ∀ l ∈ ls, x ∈ l := by
  cases ls with
  | nil => simp [intersectLists]
  | cons l rest =>
    unfold intersectLists
    rw [List.mem_filter]
    constructor
    · rintro ⟨hx, hall⟩
      refine ⟨by simp, fun l' hl' => ?_⟩
      rcases List.mem_cons.mp hl' with rfl | hm
      · exact hx
      · have := List.all_eq_true.mp hall l' hm
        simpa using this
    · rintro ⟨-, hall⟩
      refine ⟨hall l (List.mem_cons_self _ _), List.all_eq_true.mpr ?_⟩
      intro l' hl'
      simpa using hall l' (List.mem_cons_of_mem _ hl')

/-- Running `search` on a query with no surviving terms. -/
theorem search_nil (e : SearchEngine) (q : List Char)
    (hq : queryTerms q = []) : SearchEngine.search e q = [] := by
  unfold SearchEngine.search
  rw [hq]

/-- Running `search` on a single-term query follows the fast path: answer `[]` on
a trie miss, else the term's occurrence list. -/
theorem search_single (e : SearchEngine) (q : List Char) (w : List Char)
    (hq : queryTerms q = [w]) :
    SearchEngine.search e q =
      if Trie.search e.trie w = -1 then []
      else listGet e.occurrence_lists (Trie.search e.trie w) := by
  unfold SearchEngine.search
  rw [hq]

/-- Running `search` on a query of two or more terms intersects the collected
occurrence lists. -/
theorem search_multi (e : SearchEngine) (q : List Char) {t t2 : List Char}
    {ts2 : List (List Char)} (hq : queryTerms q = t :: t2 :: ts2) :
    SearchEngine.search e q =
      match collectLists e (t :: t2 :: ts2) with
      | none => []
      | some ls => intersectLists ls := by
  unfold SearchEngine.search
  rw [hq]

/-- Membership in a search result in terms of the trie and the occurrence
lists: the query must have at least one term, every term must resolve in
the trie, and the candidate must lie in every term's occurrence list. -/
theorem mem_search {e : SearchEngine} {q : List Char} {x : Nat} :
    x ∈ SearchEngine.search e q ↔
      queryTerms q ≠ [] ∧ ∀ t ∈ queryTerms q,
        Trie.search e.trie t ≠ -1 ∧
          x ∈ listGet e.occurrence_lists (Trie.search e.trie t) := by
  cases hq : queryTerms q with
  | nil => rw [search_nil e q hq]; simp
  | cons t ts =>
    cases ts with
    | nil =>
      rw [search_single e q t hq]
      by_cases hf : Trie.search e.trie t = -1
      · simp [hf]
      · simp [hf]
    | cons t2 ts2 =>
      rw [search_multi e q hq]
      cases hc : collectLists e (t :: t2 :: ts2) with
      | none =>
        refine iff_of_false (by simp) ?_
        obtain ⟨t', ht', hs⟩ := collectLists_none_iff.mp hc
        rintro ⟨-, hall⟩
        exact (hall t' ht').1 hs
      | some ls =>
        have hnone : ¬ ∃ t' ∈ t :: t2 :: ts2, Trie.search e.trie t' = -1 :=
          collectLists_none_iff.not.mp (by simp [hc])
        push_neg at hnone
        rw [collectLists_some_eq hc, mem_intersectLists]
        constructor
        · rintro ⟨-, hall⟩
          refine ⟨by simp, fun t' ht' => ⟨hnone t' ht', ?_⟩⟩
          exact hall _ (List.mem_map_of_mem _ ht')
        · rintro ⟨-, hall⟩
          refine ⟨by simp, fun l hl => ?_⟩
          obtain ⟨t', ht', rfl⟩ := List.mem_map.mp hl
          exact (hall t' ht').2

/-! ### Ranking lemmas -/

/-- The stored term frequency of a term for a document: the `Counter`
entry in `word_frequencies`, 0 when the document (or the term) is
absent. -/
def storedFreq (e : SearchEngine) (u : Nat) (t : List Char) : Nat :=
  match List.lookup u e.word_frequencies with
  | some toks => freqIn toks t
  | none => 0

/-- Score of one candidate for a term list, written as a sum over the
term list: each term entry contributes its stored frequency plus its
title bonus. -/
def pointScore (e : SearchEngine) (terms : List (List Char)) (u : Nat) : Nat :=
  (terms.map (fun t => storedFreq e u t + titleBonus e u t)).sum

/-- The score formula as `rank_results` actually computes it, summed over
query-term occurrences: a term repeated in the query contributes once per
occurrence. -/
def scoreMulti (e : SearchEngine) (q : List Char) (u : Nat) : Nat :=
  pointScore e (queryTerms q) u

/-- The score formula as the specification states it, summed over the
distinct query terms. -/
def scoreDistinct (e : SearchEngine) (q : List Char) (u : Nat) : Nat :=
  pointScore e ((queryTerms q).dedup) u

theorem foldl_two_add_eq_sum (f g : List Char → Nat) :
    ∀ (l : List (List Char)) (s : Nat),
      l.foldl (fun acc t => acc + f t + g t) s =
        s + (l.map (fun t => f t + g t)).sum := by
  intro l
  induction l with
  | nil => intro s; simp
  | cons t rest ih =>
    intro s
    rw [List.foldl_cons, ih, List.map_cons, List.sum_cons]
    omega

/-- The score loop equals the stated per-candidate sum, once the
document's token list has been found in `word_frequencies`. -/
theorem scoreLoop_eq_pointScore {e : SearchEngine} {u : Nat}
    {toks : List (List Char)}
    (h : List.lookup u e.word_frequencies = some toks)
    (terms : List (List Char)) :
    scoreLoop e terms toks u = pointScore e terms u := by
  unfold scoreLoop pointScore
  rw [foldl_two_add_eq_sum (freqIn toks) (titleBonus e u) terms 0, Nat.zero_add]
  congr 1
  apply List.map_congr_left
  intro t _
  have hsf : storedFreq e u t = freqIn toks t := by
    unfold storedFreq
    rw [h]
  rw [hsf]

theorem scoresFor_isSome {e : SearchEngine} {terms : List (List Char)} :
    ∀ {us : List Nat},
      (∀ u ∈ us, (List.lookup u e.word_frequencies).isSome) →
      (scoresFor e terms us).isSome := by
  intro us
  induction us with
  | nil => intro _; rfl
  | cons u rest ih =>
    intro h
    unfold scoresFor
    cases hl : List.lookup u e.word_frequencies with
    | none =>
      have := h u (List.mem_cons_self _ _)
      rw [hl] at this
      exact absurd this (by simp)
    | some toks =>
      have hrest := ih (fun v hv => h v (List.mem_cons_of_mem _ hv))
      cases hc : scoresFor e terms rest with
      | none => rw [hc] at hrest; exact absurd hrest (by simp)
      | some ps => rfl

theorem scoresFor_some_spec {e : SearchEngine} {terms : List (List Char)} :
    ∀ {us : List Nat} {ps : List (Nat × Nat)},
      scoresFor e terms us = some ps →
      ps.map Prod.fst = us ∧ ∀ p ∈ ps, p.2 = pointScore e terms p.1 := by
  intro us
  induction us with
  | nil =>
    intro ps h
    have : ps = [] := by simpa [scoresFor] using h.symm
    subst this
    simp
  | cons u rest ih =>
    intro ps h
    unfold scoresFor at h
    cases hl : List.lookup u e.word_frequencies with
    | none => rw [hl] at h; exact absurd h (by simp)
    | some toks =>
      rw [hl] at h
      cases hc : scoresFor e terms rest with
      | none => rw [hc] at h; exact absurd h (by simp)
      | some ps' =>
        rw [hc] at h
        have hps : (u, scoreLoop e terms toks u) :: ps' = ps := by simpa using h
        obtain ⟨ihfst, ihval⟩ := ih hc
        subst hps
        constructor
        · rw [List.map_cons, ihfst]
        · intro p hp
          rcases List.mem_cons.mp hp with rfl | hm
          · exact scoreLoop_eq_pointScore hl terms
          · exact ihval p hm

theorem dedupFirst_subset {l : List Nat} : dedupFirst l ⊆ l := by
  induction l with
  | nil => simp [dedupFirst]
  | cons x xs ih =>
    unfold dedupFirst
    intro y hy
    rcases List.mem_cons.mp hy with rfl | hm
    · exact List.mem_cons_self _ _
    · exact List.mem_cons_of_mem _ (ih (List.mem_of_mem_filter hm))

theorem dedupFirst_eq_self {l : List Nat} (h : l.Nodup) : dedupFirst l = l := by
  induction l with
  | nil => rfl
  | cons x xs ih =>
    have h' := List.nodup_cons.mp h
    unfold dedupFirst
    rw [ih h'.2, List.filter_eq_self.mpr]
    intro y hy
    have hne : y ≠ x := fun hyx => h'.1 (hyx ▸ hy)
    simpa using hne

/-- The method `rank_results` unfolded through a successful scoring pass.  The
returned list is a permutation of the deduplicated candidates and is
sorted descending in the computed scores. -/
theorem rank_results_spec {e : SearchEngine} {q : List Char} {cands : List Nat}
    (hsome : ∀ u ∈ cands, (List.lookup u e.word_frequencies).isSome) :
    ∃ out, SearchEngine.rank_results e q cands = some out ∧
      out.Perm (dedupFirst cands) ∧
      out.Pairwise (fun a b => scoreMulti e q b ≤ scoreMulti e q a) := by
  have hsome' : ∀ u ∈ dedupFirst cands, (List.lookup u e.word_frequencies).isSome :=
    fun u hu => hsome u (dedupFirst_subset hu)
  have hs := @scoresFor_isSome e (queryTerms q) (dedupFirst cands) hsome'
  obtain ⟨ps, hps⟩ := Option.isSome_iff_exists.mp hs
  obtain ⟨hfst, hval⟩ := scoresFor_some_spec hps
  refine ⟨(ps.insertionSort (fun a b => b.2 ≤ a.2)).map Prod.fst, ?_, ?_, ?_⟩
  · unfold SearchEngine.rank_results
    rw [hps]
  · exact hfst ▸ ((List.perm_insertionSort _ ps).map Prod.fst)
  · have hsorted : (ps.insertionSort (fun a b => b.2 ≤ a.2)).Pairwise
        (fun a b => b.2 ≤ a.2) := by
      haveI : IsTotal (Nat × Nat) (fun a b => b.2 ≤ a.2) :=
        ⟨fun a b => Nat.le_total b.2 a.2⟩
      haveI : IsTrans (Nat × Nat) (fun a b => b.2 ≤ a.2) :=
        ⟨fun _ _ _ hab hbc => Nat.le_trans hbc hab⟩
      exact List.sorted_insertionSort _ ps
    rw [List.pairwise_map]
    refine hsorted.imp_of_mem ?_
    intro a b ha hb hle
    have ha' := hval a ((List.mem_insertionSort _).mp ha)
    have hb' := hval b ((List.mem_insertionSort _).mp hb)
    show scoreMulti e q b.1 ≤ scoreMulti e q a.1
    unfold scoreMulti
    rw [← ha', ← hb']
    exact hle

/-! ### Built-engine search semantics -/

/-- A document id lies in a built engine's search result iff the query
has at least one surviving term and some indexed document with that id
contains every query term. -/
theorem mem_search_buildEngine {docs : List Doc} {q : List Char} {x : Nat} :
    x ∈ SearchEngine.search (buildEngine docs) q ↔
      tokenize q ≠ [] ∧
        ∀ t ∈ tokenize q, ∃ doc ∈ docs, doc.id = x ∧ t ∈ tokenize doc.text := by
  rw [mem_search, queryTerms_eq_tokenize]
  constructor
  · rintro ⟨hne, hall⟩
    refine ⟨hne, fun t ht => ?_⟩
    have h := hall t ht
    have hx : x ∈ postingsForTerm (buildEngine docs) t := by
      unfold postingsForTerm
      rw [if_neg h.1]
      exact h.2
    exact mem_postingsForTerm.mp hx
  · rintro ⟨hne, hall⟩
    refine ⟨hne, fun t ht => ?_⟩
    obtain ⟨doc, hdoc, hid, htok⟩ := hall t ht
    have hv : t ∈ sortedWords docs := mem_sortedWords.mpr ⟨doc, hdoc, htok⟩
    have hfound : Trie.search (buildEngine docs).trie t ≠ -1 := by
      rw [show (buildEngine docs).trie = buildTrie (sortedWords docs) from rfl,
        trie_search_buildTrie_mem (sortedWords_nodup docs) hv]
      exact fun h => Int.noConfusion h
    refine ⟨hfound, ?_⟩
    have hx : x ∈ postingsForTerm (buildEngine docs) t :=
      mem_postingsForTerm.mpr ⟨doc, hdoc, hid, htok⟩
    unfold postingsForTerm at hx
    rw [if_neg hfound] at hx
    exact hx

/-- Every id a built engine returns was contributed by some indexed
document. -/
theorem search_subset_ids (docs : List Doc) (q : List Char) :
    SearchEngine.search (buildEngine docs) q ⊆ docs.map Doc.id := by
  intro x hx
  obtain ⟨hne, hall⟩ := mem_search_buildEngine.mp hx
  obtain ⟨t, ht⟩ := List.exists_mem_of_ne_nil _ hne
  obtain ⟨doc, hdoc, hid, -⟩ := hall t ht
  exact hid ▸ List.mem_map_of_mem Doc.id hdoc

/-- In a built engine every indexed id has a `word_frequencies` entry. -/
theorem buildEngine_lookup_isSome {docs : List Doc} {u : Nat}
    (h : u ∈ docs.map Doc.id) :
    (List.lookup u (buildEngine docs).word_frequencies).isSome := by
  rw [show (buildEngine docs).word_frequencies
      = docs.map (fun d => (d.id, tokenize d.text)) from rfl]
  exact lookup_build_isSome h

/-! ### Concrete example data -/

/-- A two-document collection used to instantiate the claims. -/
def exDocs : List Doc :=
  [⟨0, "t zero".toList, "aa bb bb bb bb".toList⟩,
   ⟨1, "t one".toList, "aa aa aa bb".toList⟩]

/-- The engine built from `exDocs`. -/
def exEngine : SearchEngine := buildEngine exDocs

/-- A query with a repeated term, used for the C1 counterexample. -/
def exQ : List Char := "aa aa bb".toList

/-! ### Claims -/

/-- C4: for every trie built by inserting pairwise-distinct `(term, index)`
pairs, searching an inserted term returns the index given at its
insertion, and searching any other string returns `-1` (`NOT_FOUND`) —
covering both a missing child on the path and a complete path whose
terminal node is not marked as end of a term. -/
theorem claim_C4_trie_correct (ps : List (List Char × Int))
    (hnd : (ps.map Prod.fst).Nodup) (w : List Char) :
    Trie.search (Trie.insertAll TrieNode.empty ps) w =
      match assocLookup ps w with
      | some i => i
      | none => -1 :=
  trie_insertAll_search ps hnd w

theorem claim_C4_witness :
    ((([("ab".toList, (0 : Int)), ("abc".toList, 2), ("b".toList, 5)]).map
        Prod.fst).Nodup) ∧
    Trie.search (Trie.insertAll TrieNode.empty
      [("ab".toList, (0 : Int)), ("abc".toList, 2), ("b".toList, 5)])
      "abc".toList = 2 ∧
    Trie.search (Trie.insertAll TrieNode.empty
      [("ab".toList, (0 : Int)), ("abc".toList, 2), ("b".toList, 5)])
      "a".toList = -1 ∧
    Trie.search (Trie.insertAll TrieNode.empty
      [("ab".toList, (0 : Int)), ("abc".toList, 2), ("b".toList, 5)])
      "zz".toList = -1 :=
  ⟨by decide,
   claim_C4_trie_correct _ (by decide) _,
   claim_C4_trie_correct _ (by decide) _,
   claim_C4_trie_correct _ (by decide) _⟩

/-- C8: joining the tokens of `tokenize x` with single spaces and
tokenizing again yields exactly `tokenize x`. -/
theorem claim_C8_tokenize_idempotent (x : List Char) :
    tokenize (joinSpace (tokenize x)) = tokenize x :=
  tokenize_joinSpace x

/-- C3: if the tokenized query is non-empty and any of its terms resolves
to `-1` in the trie, `search` returns the empty result, whatever the other
terms. -/
theorem claim_C3_notfound_empty (e : SearchEngine) (q : List Char)
    (t : List Char) (hne : tokenize q ≠ []) (ht : t ∈ tokenize q)
    (hmiss : Trie.search e.trie t = -1) :
    SearchEngine.search e q = [] := by
  rw [List.eq_nil_iff_forall_not_mem]
  intro x hx
  rw [mem_search, queryTerms_eq_tokenize] at hx
  exact (hx.2 t ht).1 hmiss

theorem claim_C3_witness :
    tokenize "aa zz".toList ≠ [] ∧
    "zz".toList ∈ tokenize "aa zz".toList ∧
    Trie.search exEngine.trie "zz".toList = -1 ∧
    SearchEngine.search exEngine "aa zz".toList = [] :=
  ⟨by decide, by decide, by decide,
   claim_C3_notfound_empty exEngine _ "zz".toList (by decide) (by decide)
     (by decide)⟩

/-- C6: on a query that tokenizes to exactly one term, `search` of a built
engine returns exactly the occurrence list stored at the index the trie
returns for that term, and the empty list when the trie answers `-1`. -/
theorem claim_C6_single_term (docs : List Doc) (q : List Char)
    (t : List Char) (h : tokenize q = [t]) :
    SearchEngine.search (buildEngine docs) q =
      (if Trie.search (buildEngine docs).trie t = -1 then []
       else listGet (buildEngine docs).occurrence_lists
         (Trie.search (buildEngine docs).trie t)) :=
  search_single _ _ _ (by rw [queryTerms_eq_tokenize, h])

theorem claim_C6_witness :
    tokenize "bb".toList = ["bb".toList] ∧
    SearchEngine.search (buildEngine exDocs) "bb".toList =
      (if Trie.search (buildEngine exDocs).trie "bb".toList = -1 then []
       else listGet (buildEngine exDocs).occurrence_lists
         (Trie.search (buildEngine exDocs).trie "bb".toList)) :=
  ⟨by decide, claim_C6_single_term exDocs _ _ (by decide)⟩

/-- C7: two queries with the same non-empty set of tokenized terms (the
same terms up to reordering and duplication) produce the same search
result as a set of document identifiers. -/
theorem claim_C7_term_set (e : SearchEngine) (q1 q2 : List Char)
    (h1 : tokenize q1 ≠ []) (h2 : tokenize q2 ≠ [])
    (h12 : ∀ t ∈ tokenize q1, t ∈ tokenize q2)
    (h21 : ∀ t ∈ tokenize q2, t ∈ tokenize q1) :
    (SearchEngine.search e q1).toFinset =
      (SearchEngine.search e q2).toFinset := by
  apply Finset.ext
  intro x
  rw [List.mem_toFinset, List.mem_toFinset, mem_search, mem_search,
    queryTerms_eq_tokenize, queryTerms_eq_tokenize]
  constructor
  · rintro ⟨-, hall⟩
    exact ⟨h2, fun t ht => hall t (h21 t ht)⟩
  · rintro ⟨-, hall⟩
    exact ⟨h1, fun t ht => hall t (h12 t ht)⟩

theorem claim_C7_witness :
    tokenize "aa bb".toList ≠ [] ∧
    tokenize "bb aa aa".toList ≠ [] ∧
    (∀ t ∈ tokenize "aa bb".toList, t ∈ tokenize "bb aa aa".toList) ∧
    (∀ t ∈ tokenize "bb aa aa".toList, t ∈ tokenize "aa bb".toList) ∧
    (SearchEngine.search exEngine "aa bb".toList).toFinset =
      (SearchEngine.search exEngine "bb aa aa".toList).toFinset :=
  ⟨by decide, by decide, by decide, by decide,
   claim_C7_term_set exEngine _ _ (by decide) (by decide) (by decide)
     (by decide)⟩

/-- C2: in a built engine, a document id appears in a term's postings list
iff the stored frequency of that term for that document is at least 1. -/
theorem claim_C2_postings_freq (docs : List Doc)
    (hnd : (docs.map Doc.id).Nodup) (t : List Char) (d : Nat) :
    d ∈ postingsForTerm (buildEngine docs) t ↔
      1 ≤ storedFreq (buildEngine docs) d t := by
  rw [mem_postingsForTerm]
  constructor
  · rintro ⟨doc, hdoc, rfl, htok⟩
    unfold storedFreq
    rw [show (buildEngine docs).word_frequencies
        = docs.map (fun dd => (dd.id, tokenize dd.text)) from rfl,
      lookup_build_of_mem hnd hdoc]
    exact List.count_pos_iff.mpr htok
  · intro h
    unfold storedFreq at h
    cases hl : List.lookup d (buildEngine docs).word_frequencies with
    | none => rw [hl] at h; simp at h
    | some toks =>
      rw [hl] at h
      have hl' : List.lookup d
          (docs.map (fun dd => (dd.id, tokenize dd.text))) = some toks := hl
      obtain ⟨doc, hdoc, hid, htoks⟩ := lookup_build_some hl'
      refine ⟨doc, hdoc, hid, ?_⟩
      rw [htoks]
      exact List.count_pos_iff.mp h

theorem claim_C2_witness :
    ((exDocs.map Doc.id).Nodup) ∧
    (0 ∈ postingsForTerm (buildEngine exDocs) "aa".toList ↔
      1 ≤ storedFreq (buildEngine exDocs) 0 "aa".toList) :=
  ⟨by decide, claim_C2_postings_freq exDocs (by decide) _ 0⟩

/-- C5: in a built engine, every occurrence list is sorted ascending and
has no duplicate document id. -/
theorem claim_C5_sorted_nodup (docs : List Doc)
    (hnd : (docs.map Doc.id).Nodup) (l : List Nat)
    (hl : l ∈ (buildEngine docs).occurrence_lists) :
    List.Sorted (· ≤ ·) l ∧ l.Nodup := by
  rw [show (buildEngine docs).occurrence_lists
      = (sortedWords docs).map (fun w => sortIds (invList docs w)) from rfl] at hl
  obtain ⟨w, -, rfl⟩ := List.mem_map.mp hl
  constructor
  · exact List.sorted_insertionSort _ _
  · refine (List.perm_insertionSort _ _).nodup_iff.mpr ?_
    have hsub : List.Sublist (invList docs w) (docs.map Doc.id) :=
      (List.filter_sublist docs).map Doc.id
    exact hnd.sublist hsub

theorem claim_C5_witness :
    ((exDocs.map Doc.id).Nodup) ∧
    List.Sorted (· ≤ ·) ([0, 1] : List Nat) ∧ ([0, 1] : List Nat).Nodup :=
  ⟨by decide, claim_C5_sorted_nodup exDocs (by decide) [0, 1] (by decide)⟩

/-- C9: every id a built engine's `search` returns was added during the
build, and ranking that result set never hits a missing-key lookup (the
`rank_results` pass succeeds). -/
theorem claim_C9_safety (docs : List Doc) (q : List Char) :
    SearchEngine.search (buildEngine docs) q ⊆ docs.map Doc.id ∧
    (SearchEngine.rank_results (buildEngine docs) q
      (SearchEngine.search (buildEngine docs) q)).isSome := by
  refine ⟨search_subset_ids docs q, ?_⟩
  obtain ⟨out, hout, -, -⟩ := @rank_results_spec (buildEngine docs) q
    (SearchEngine.search (buildEngine docs) q)
    (fun u hu => buildEngine_lookup_isSome (search_subset_ids docs q hu))
  rw [hout]
  rfl

/-- C10: on a duplicate-free candidate list of indexed document ids,
`rank_results` succeeds and returns a permutation of the candidates. -/
theorem claim_C10_permutation (docs : List Doc) (q : List Char)
    (cands : List Nat) (hnd : cands.Nodup)
    (hin : ∀ c ∈ cands, c ∈ docs.map Doc.id) :
    ∃ out, SearchEngine.rank_results (buildEngine docs) q cands = some out ∧
      out.Perm cands := by
  obtain ⟨out, hout, hperm, -⟩ := rank_results_spec
    (fun u hu => buildEngine_lookup_isSome (hin u hu))
  refine ⟨out, hout, ?_⟩
  rwa [dedupFirst_eq_self hnd] at hperm

theorem claim_C10_witness :
    (([1, 0] : List Nat).Nodup) ∧
    (∀ c ∈ ([1, 0] : List Nat), c ∈ exDocs.map Doc.id) ∧
    (∃ out, SearchEngine.rank_results (buildEngine exDocs) "aa".toList [1, 0]
        = some out ∧ out.Perm [1, 0]) :=
  ⟨by decide, by decide,
   claim_C10_permutation exDocs "aa".toList [1, 0] (by decide) (by decide)⟩

/-- C1 (as stated, refuted): on the engine built from `exDocs` and the
query `"aa aa bb"` (the term `"aa"` repeated), `rank_results` returns
document 1 before document 0, yet the claim's distinct-term score of
document 1 is strictly smaller than that of document 0 — so the output is
not sorted in descending order of the distinct-term score. -/
theorem claim_C1_counterexample :
    SearchEngine.rank_results exEngine exQ
        (SearchEngine.search exEngine exQ) = some [1, 0] ∧
    scoreDistinct exEngine exQ 1 < scoreDistinct exEngine exQ 0 :=
  ⟨by decide, by decide⟩

/-- C1 (amended): `rank_results` on the candidates returned by `search`
succeeds and returns those candidates (first occurrences of duplicates
collapsed) sorted in descending order of the score that sums, over query
term OCCURRENCES (a repeated term contributes once per occurrence), the
term's stored frequency in the document plus 2 when the term occurs
case-insensitively in the document's title. -/
theorem claim_C1_amended (docs : List Doc) (q : List Char) :
    ∃ out, SearchEngine.rank_results (buildEngine docs) q
        (SearchEngine.search (buildEngine docs) q) = some out ∧
      out.Perm (dedupFirst (SearchEngine.search (buildEngine docs) q)) ∧
      out.Pairwise (fun a b =>
        scoreMulti (buildEngine docs) q b ≤ scoreMulti (buildEngine docs) q a) :=
  rank_results_spec
    (fun u hu => buildEngine_lookup_isSome (search_subset_ids docs q hu))

end SearchSpec
